import Mathlib

/-!
Verification of the avientek_reports repository.

The development shallowly embeds the algorithmic parts of the repository:

* `batch_wise_free_stock_ageing_report.py` — the FIFO free-stock ageing
  walk (`calculate_free_stock`), the filter validation in `execute`, and
  the positive-balance output filter of `execute`;
* `avientek_stock_allocation.py` — the FIFO allocation loop inside
  `get_data` together with the `stock_left` bookkeeping shared across
  sales-order rows;
* `avientek_free_stock___landing_cost.py` — `_get_landed_cost` (weighted
  stock valuation with purchase-order fallback) and `_scrub_zero_rows`;
* `avientek_free_stock.py` — `remove_all_zero_rows`;
* `utils.py` — `rebuild_stock_allocation`.

Quantities (Python floats) are modelled as rationals; dates are modelled
as natural numbers (`Option Nat` where the source value may be missing);
identifiers (item codes, companies, warehouses, batch numbers) are
modelled as natural numbers or strings as convenient.  Database query
results are passed in as explicit lists.
-/

namespace Avientek

/-- One batch of one item at one warehouse, as assembled by
`calculate_free_stock` from `iwb_map` and `batch_map`: `bal_qty` is the
accumulated balance from the stock ledger and `mfg_date` is
`manufacturing_date or creation` from the batch master (`none` when both
are missing). -/
structure BatchInfo where
  batch_no : Nat
  bal_qty : ℚ
  mfg_date : Option Nat
deriving DecidableEq, Repr

/-- The Python sort key `(x["mfg_date"] is None, x["mfg_date"] or "")`:
missing manufacturing dates sort after all present dates. -/
def batchKey (b : BatchInfo) : Nat × Nat :=
  match b.mfg_date with
  | none => (1, 0)
  | some d => (0, d)

/-- Lexicographic comparison of the sort keys of two batches. -/
def batchLE (x y : BatchInfo) : Bool :=
  decide ((batchKey x).1 < (batchKey y).1 ∨
    ((batchKey x).1 = (batchKey y).1 ∧ (batchKey x).2 ≤ (batchKey y).2))

/-- Stable insertion of a batch into an already sorted list (the element
being inserted precedes later list elements with an equal key, matching
Python's stable `list.sort`). -/
def insertBatch (x : BatchInfo) : List BatchInfo → List BatchInfo
  | [] => [x]
  | y :: ys => if batchLE x y then x :: y :: ys else y :: insertBatch x ys

/-- `batches.sort(key=lambda x: (x["mfg_date"] is None, x["mfg_date"] or ""))`
from `calculate_free_stock`. -/
def sort_batches (l : List BatchInfo) : List BatchInfo :=
  l.foldr insertBatch []

/-- The per-batch loop of `calculate_free_stock`: walk the (sorted)
batches consuming `remaining_reserved`; a batch with non-positive balance
is skipped (`free_stock = 0`, reserved unchanged); otherwise the batch is
either fully reserved (`free_stock = 0`) or partially reserved
(`free_stock = bal_qty - remaining_reserved`).  Returns each batch paired
with its computed `free_stock`. -/
def walkFree (remaining : ℚ) : List BatchInfo → List (BatchInfo × ℚ)
  | [] => []
  | b :: rest =>
    if b.bal_qty ≤ 0 then
      (b, 0) :: walkFree remaining rest
    else if remaining ≥ b.bal_qty then
      (b, 0) :: walkFree (remaining - b.bal_qty) rest
    else
      (b, b.bal_qty - remaining) :: walkFree 0 rest

/-- `calculate_free_stock` for one item: sort that item's batches (across
all warehouses) by manufacturing date, then walk them consuming the
item's reserved quantity. -/
def calculate_free_stock (reserved : ℚ) (batches : List BatchInfo) : List (BatchInfo × ℚ) :=
  walkFree reserved (sort_batches batches)

/-- The walk exactly as the claim words it, with no skip rule for
non-positive balances: every batch is compared against
`remaining_reserved` and the reserved amount is reduced by the batch
balance whenever `remaining_reserved ≥ bal_qty`. -/
def walkClaim (remaining : ℚ) : List BatchInfo → List (BatchInfo × ℚ)
  | [] => []
  | b :: rest =>
    if remaining ≥ b.bal_qty then
      (b, 0) :: walkClaim (remaining - b.bal_qty) rest
    else
      (b, b.bal_qty - remaining) :: walkClaim 0 rest

/-- The claim-side walk applied after the same sort. -/
def calculateFreeStockClaim (reserved : ℚ) (batches : List BatchInfo) : List (BatchInfo × ℚ) :=
  walkClaim reserved (sort_batches batches)

/-- Nonnegative part of a rational. -/
def posPart (q : ℚ) : ℚ := max q 0

/-- Closed-form free stock of one batch: `c` is the total positive
balance of the batches that precede it in the sorted order. -/
def freeFormula (reserved : ℚ) (b : BatchInfo) (c : ℚ) : ℚ :=
  if b.bal_qty ≤ 0 then 0 else posPart (b.bal_qty - posPart (reserved - c))

/-- Specification-side description of the walk: pair every batch with the
total positive balance standing before it, and apply `freeFormula`. -/
def specAgeing (reserved : ℚ) (l : List BatchInfo) : List (BatchInfo × ℚ) :=
  (l.zip (l.scanl (fun acc b => acc + posPart b.bal_qty) 0)).map
    (fun p => (p.1, freeFormula reserved p.1 p.2))

/-- One output row of the batch-wise ageing report (the fields the claims
are about). -/
structure AgeRow where
  batch_no : Nat
  balance_qty : ℚ
  free_stock : ℚ
deriving DecidableEq, Repr

/-- The row-assembly loop of `execute`: after `calculate_free_stock` has
attached a `free_stock` value to every batch, only batches with
`bal_qty > 0` are emitted as report rows. -/
def build_report_rows (reserved : ℚ) (batches : List BatchInfo) : List AgeRow :=
  (calculate_free_stock reserved batches).filterMap
    (fun p => if 0 < p.1.bal_qty then some ⟨p.1.batch_no, p.1.bal_qty, p.2⟩ else none)

/-- The filters of the batch-wise ageing report that take part in
validation.  A `none` field models a missing (falsy) filter value. -/
structure AgeingFilters where
  item_code : Option String
  warehouse : Option String
  warehouse_type : Option String
  from_date : Option Nat
  to_date : Option Nat
deriving DecidableEq, Repr

/-- The validation errors raised by `frappe.throw` on the execution path
of the batch-wise ageing report. -/
inductive ReportError where
  | selectFilter
  | fromAfterTo
  | fromRequired
  | toRequired
deriving DecidableEq, Repr

/-- `SLE_COUNT_LIMIT` from the report module. -/
def SLE_COUNT_LIMIT : Nat := 100000

/-- `filters.from_date > filters.to_date` guarded by
`filters.get("from_date") and filters.get("to_date")`. -/
def datesOutOfOrder (f : AgeingFilters) : Bool :=
  match f.from_date, f.to_date with
  | some a, some b => decide (b < a)
  | _, _ => false

/-- The validation performed on the execution path of `execute`: the
stock-ledger-count guard, the date-order check, and then the mandatory
from/to date checks raised inside
`get_stock_ledger_entries_for_batch_no`, in source order. -/
def validate_ageing_filters (sleCount : Nat) (f : AgeingFilters) : Except ReportError Unit :=
  if sleCount > SLE_COUNT_LIMIT ∧ f.item_code = none ∧ f.warehouse = none ∧
      f.warehouse_type = none then
    Except.error ReportError.selectFilter
  else if datesOutOfOrder f then
    Except.error ReportError.fromAfterTo
  else if f.from_date = none then
    Except.error ReportError.fromRequired
  else if f.to_date = none then
    Except.error ReportError.toRequired
  else
    Except.ok ()

/-- One FIFO stock lot of `make_fifo_map`: a positive stock ledger entry
for an (item, company) pair, ordered by posting date by the SQL query.
The allocation loop only reads and mutates `qty`. -/
structure Lot where
  qty : ℚ
  date : Nat
deriving DecidableEq, Repr

/-- The inner `for lot in fifo_map[item].get(comp, [])` loop of
`get_data`: break when the demand is exhausted or the allocation reaches
the company-level `available` stock; otherwise take
`min(lot.qty, need, available - alloc)` from the current lot.  Returns
the total allocation together with the mutated lot list. -/
def allocLoop (available : ℚ) : ℚ → ℚ → List Lot → ℚ × List Lot
  | _, alloc, [] => (alloc, [])
  | need, alloc, lot :: rest =>
    if need ≤ 0 ∨ available ≤ alloc then (alloc, lot :: rest)
    else
      let take := min lot.qty (min need (available - alloc))
      let res := allocLoop available (need - take) (alloc + take) rest
      (res.1, { lot with qty := lot.qty - take } :: res.2)

/-- One allocation pass of `get_data` for one sales-order row: the loop
runs only when `available > 0`, with `need` initialised to the row's
outstanding balance quantity. -/
def allocatePass (available need : ℚ) (lots : List Lot) : ℚ × List Lot :=
  if 0 < available then allocLoop available need 0 lots else (0, lots)

/-- Total quantity held by a lot list. -/
def sumQty (l : List Lot) : ℚ := (l.map Lot.qty).sum

/-- The whole-run bookkeeping of `get_data` for one (item, company)
scope: the rows' demands are served one after the other from the shared
`stock_left` value and the shared FIFO lot list, with
`stock_left = max(available - alloc, 0)` after every pass.  Returns the
total quantity allocated across all rows, the final `stock_left`, and
the final lot list. -/
def runDemands (stock : ℚ) (lots : List Lot) : List ℚ → ℚ × ℚ × List Lot
  | [] => (0, stock, lots)
  | d :: ds =>
    let res := allocatePass stock d lots
    let rec' := runDemands (max (stock - res.1) 0) res.2 ds
    (res.1 + rec'.1, rec'.2.1, rec'.2.2)

/-- One row of the `tabBin` aggregate used by `_get_landed_cost`:
quantity and valuation rate of one item in one warehouse, with the
warehouse's company. -/
structure BinRow where
  item : Nat
  company : Nat
  qty : ℚ
  rate : ℚ
deriving DecidableEq, Repr

/-- One `tabPurchase Order Item` row. -/
structure POItem where
  item : Nat
  rate : ℚ
deriving DecidableEq, Repr

/-- One `tabPurchase Order` document with its item rows. -/
structure PurchaseOrder where
  pid : Nat
  company : Nat
  docstatus : Nat
  tdate : Nat
  creation : Nat
  items : List POItem
deriving DecidableEq, Repr

/-- The bins selected by the weighted-valuation query of
`_get_landed_cost`: item restricted to the report's item codes and
`actual_qty > 0`. -/
def stockBins (bins : List BinRow) (codes : List Nat) : List BinRow :=
  bins.filter (fun b => decide (b.item ∈ codes ∧ 0 < b.qty))

/-- The `GROUP BY B.item_code, W.company` keys of that query. -/
def groupKeys (bins : List BinRow) (codes : List Nat) : List (Nat × Nat) :=
  ((stockBins bins codes).map (fun b => (b.item, b.company))).dedup

/-- `SUM(B.actual_qty)` of one group. -/
def gQty (bins : List BinRow) (codes : List Nat) (k : Nat × Nat) : ℚ :=
  (((stockBins bins codes).filter (fun b => decide ((b.item, b.company) = k))).map
    BinRow.qty).sum

/-- `SUM(B.actual_qty * B.valuation_rate)` of one group. -/
def gVal (bins : List BinRow) (codes : List Nat) (k : Nat × Nat) : ℚ :=
  (((stockBins bins codes).filter (fun b => decide ((b.item, b.company) = k))).map
    (fun b => b.qty * b.rate)).sum

/-- The `rate` dictionary of `_get_landed_cost`, as an association list;
later writes shadow earlier ones, and a missing key reads as `0`
(`defaultdict(lambda: defaultdict(float))`). -/
abbrev RateMap : Type := List ((Nat × Nat) × ℚ)

/-- Dictionary lookup with default `0`. -/
def getR (m : RateMap) (k : Nat × Nat) : ℚ :=
  match m.find? (fun e => decide (e.1 = k)) with
  | some e => e.2
  | none => 0

/-- Phase 1 of `_get_landed_cost`: one `rate[item][company] = val / qty`
write per group of the weighted-valuation query. -/
def phase1 (bins : List BinRow) (codes : List Nat) : RateMap :=
  (groupKeys bins codes).map (fun k => (k, gVal bins codes k / gQty bins codes k))

/-- The purchase orders admitted by the fallback query of
`_get_landed_cost`: submitted, of the given company, holding at least one
row of the given item. -/
def poCandidates (pos : List PurchaseOrder) (co it : Nat) : List PurchaseOrder :=
  pos.filter (fun p => decide (p.docstatus = 1 ∧ p.company = co ∧
    ∃ poi ∈ p.items, poi.item = it))

/-- Strictly-later comparison backing
`ORDER BY PO.transaction_date DESC, PO.creation DESC`. -/
def laterPO (q p : PurchaseOrder) : Bool :=
  decide (q.tdate < p.tdate ∨ (q.tdate = p.tdate ∧ q.creation < p.creation))

/-- `LIMIT 1` under that ordering: the candidate with the greatest
(transaction date, creation) key, the earliest listed one on ties. -/
def pickLatest (l : List PurchaseOrder) : Option PurchaseOrder :=
  l.foldl (fun acc p =>
    match acc with
    | none => some p
    | some q => if laterPO q p then some p else some q) none

/-- `SELECT AVG(rate) ... WHERE parent = po AND item_code = it` over the
chosen purchase order. -/
def avgRate (p : PurchaseOrder) (it : Nat) : ℚ :=
  let rs := (p.items.filter (fun poi => decide (poi.item = it))).map POItem.rate
  rs.sum / (rs.length : ℚ)

/-- The whole purchase-order fallback for one (item, company) pair:
average rate on the most recent submitted purchase order, `0` when no
such purchase order exists. -/
def poFallback (pos : List PurchaseOrder) (co it : Nat) : ℚ :=
  match pickLatest (poCandidates pos co it) with
  | some p => avgRate p it
  | none => 0

/-- The fallback value phase 2 writes for a key, as a function of the
key. -/
def fb (pos : List PurchaseOrder) (k : Nat × Nat) : ℚ :=
  poFallback pos k.2 k.1

/-- The body of the inner `for co in companies` loop of phase 2 of
`_get_landed_cost`: keep a truthy (nonzero) rate, otherwise write the
purchase-order fallback. -/
def stepCo (pos : List PurchaseOrder) (it : Nat) (m : RateMap) (co : Nat) : RateMap :=
  if getR m (it, co) ≠ 0 then m else ((it, co), poFallback pos co it) :: m

/-- The body of the outer `for it in codes` loop of phase 2: run the
inner loop over all companies. -/
def stepIt (pos : List PurchaseOrder) (companies : List Nat) (m : RateMap) (it : Nat) :
    RateMap :=
  companies.foldl (stepCo pos it) m

/-- Phase 2 of `_get_landed_cost`: for every item code and company, keep
a truthy (nonzero) phase-1 rate, otherwise write the purchase-order
fallback. -/
def phase2 (bins : List BinRow) (pos : List PurchaseOrder)
    (codes companies : List Nat) : RateMap :=
  codes.foldl (stepIt pos companies) (phase1 bins codes)

/-- The rate returned by `_get_landed_cost` for one (item, company)
pair. -/
def get_landed_cost (bins : List BinRow) (pos : List PurchaseOrder)
    (codes companies : List Nat) (it co : Nat) : ℚ :=
  getR (phase2 bins pos codes companies) (it, co)

/-- One report column: field name and field type (empty string when the
column dictionary carries no `fieldtype` key). -/
structure Col where
  fieldname : String
  fieldtype : String
deriving DecidableEq, Repr

/-- One report row, as an association list from field name to value;
`none` models both a missing key and an explicit `None` (both read as
`None` through `row.get`), `some v` a numeric value. -/
abbrev Row : Type := List (String × Option ℚ)

/-- `row.get(field)`. -/
def rget (r : Row) (f : String) : Option ℚ :=
  match r.lookup f with
  | some v => v
  | none => none

/-- `val not in (0, None)` from both scrub functions. -/
def nonzeroAt (r : Row) (f : String) : Prop :=
  rget r f ≠ none ∧ rget r f ≠ some 0

instance (r : Row) (f : String) : Decidable (nonzeroAt r f) := by
  unfold nonzeroAt; infer_instance

/-- The numeric fields considered by `_scrub_zero_rows` in the landing
cost report: Float/Currency/Int columns other than `unit_price` and the
per-company `*_unit_price` columns. -/
def numeric_fields_lc (cols : List Col) : List String :=
  (cols.filter (fun c =>
    decide ((c.fieldtype = "Float" ∨ c.fieldtype = "Currency" ∨ c.fieldtype = "Int") ∧
      ¬(c.fieldname = "unit_price" ∨ c.fieldname.endsWith "_unit_price")))).map
    Col.fieldname

/-- `_scrub_zero_rows` from `avientek_free_stock___landing_cost.py`:
keep a row when some considered numeric field holds a value other than
`0`/`None`. -/
def scrub_zero_rows (cols : List Col) (rows : List Row) : List Row :=
  rows.filter (fun r => (numeric_fields_lc cols).any (fun f => decide (nonzeroAt r f)))

/-- The numeric fields considered by `remove_all_zero_rows` in
`avientek_free_stock.py`: Float/Currency/Int columns other than the
single `unit_price` column. -/
def numeric_fields_fs (cols : List Col) : List String :=
  (cols.filter (fun c =>
    decide ((c.fieldtype = "Float" ∨ c.fieldtype = "Currency" ∨ c.fieldtype = "Int") ∧
      c.fieldname ≠ "unit_price"))).map Col.fieldname

/-- `remove_all_zero_rows` from `avientek_free_stock.py`, with its early
`if not data or not columns: return []` exit. -/
def remove_all_zero_rows (cols : List Col) (rows : List Row) : List Row :=
  if rows = [] ∨ cols = [] then []
  else rows.filter (fun r => (numeric_fields_fs cols).any (fun f => decide (nonzeroAt r f)))

/-- Status of a `Prepared Report` document. -/
inductive RStatus where
  | queued
  | started
  | completed
  | errored
deriving DecidableEq, Repr

/-- One `Prepared Report` row as consulted by
`rebuild_stock_allocation`. -/
structure PreparedReport where
  report_name : String
  owner : String
  status : RStatus
deriving DecidableEq, Repr

/-- `REPORT_NAME` from `utils.py`. -/
def REPORT_NAME : String := "Avientek Stock Allocation"

/-- `rebuild_stock_allocation` from `utils.py`, as a function of the
`Prepared Report` table and the target user.  Step 1 deletes every
prepared report of that name owned by the user; step 2 skips the enqueue
when a Queued/Started prepared report of that name still exists for the
user; step 3 enqueues the rebuild job.  Returns the remaining prepared
reports and whether the job was enqueued.  The delete of step 1 is
`frappe.db.delete` filtered on report name and owner only. -/
def deleteUserReports (state : List PreparedReport) (user : String) :
    List PreparedReport :=
  state.filter (fun r => decide (¬(r.report_name = REPORT_NAME ∧ r.owner = user)))

/-- The `frappe.db.exists` guard of step 2, read against the table as it
stands after the delete of step 1. -/
def duplicateJobExists (state : List PreparedReport) (user : String) : Bool :=
  state.any (fun r => decide (r.report_name = REPORT_NAME ∧ r.owner = user ∧
    (r.status = RStatus.queued ∨ r.status = RStatus.started)))

def rebuild_stock_allocation (state : List PreparedReport) (user : String) :
    List PreparedReport × Bool :=
  if duplicateJobExists (deleteUserReports state user) user then
    (deleteUserReports state user, false)
  else
    (deleteUserReports state user, true)

/-- After the unconditional delete of step 1, no prepared report of the
target name and owner remains, so the Queued/Started guard of step 2 can
never fire: the rebuild enqueues on every input state. -/
theorem rebuild_enqueues (state : List PreparedReport) (user : String) :
    (rebuild_stock_allocation state user).2 = true := by
  have h : duplicateJobExists (deleteUserReports state user) user = false := by
    rw [duplicateJobExists, List.any_eq_false]
    intro r hr
    have hmem := List.of_mem_filter hr
    simp only [decide_eq_true_eq] at hmem ⊢
    tauto
  rw [rebuild_stock_allocation, h]
  simp

/-- C5.  The claim states that when a Prepared Report for the target
user with status Queued or Started exists, the utility skips the
enqueue.  In the code the unconditional `frappe.db.delete` of step 1
removes those very rows before the guard of step 2 reads them, so the
guard never fires and a fresh job is enqueued from every starting state;
in particular it is enqueued from a state holding a Queued prepared
report for the user, contradicting the claim (and the code's own
comment). -/
theorem C5_guard_never_skips :
    (∀ state user, (rebuild_stock_allocation state user).2 = true) ∧
    (rebuild_stock_allocation [⟨REPORT_NAME, "u", RStatus.queued⟩] "u").2 = true :=
  ⟨rebuild_enqueues, rebuild_enqueues _ _⟩

/-- C6.  A sales-order row whose outstanding balance quantity is zero or
negative is allocated nothing, and the shared lot pool is returned
unchanged. -/
theorem C6_no_alloc_for_nonpositive_demand (available d : ℚ) (lots : List Lot)
    (h : d ≤ 0) : allocatePass available d lots = (0, lots) := by
  unfold allocatePass
  split
  · cases lots with
    | nil => simp [allocLoop]
    | cons lot rest => simp [allocLoop, h]
  · rfl

/-- Witness for C6 at demand `-3`. -/
theorem C6_witness :
    (-3 : ℚ) ≤ 0 ∧ allocatePass 8 (-3) [⟨5, 1⟩, ⟨3, 2⟩] = (0, [⟨5, 1⟩, ⟨3, 2⟩]) :=
  ⟨by norm_num, C6_no_alloc_for_nonpositive_demand 8 (-3) _ (by norm_num)⟩

/-- C9.  The batch-wise ageing report aborts with a validation error when
the date range is missing while the stock-ledger count exceeds the
100 000 threshold, aborts when the supplied from-date is after the
to-date, and raises no validation error on valid filters. -/
theorem C9_filter_validation :
    (∀ c f, SLE_COUNT_LIMIT < c → (f.from_date = none ∨ f.to_date = none) →
      ∃ e, validate_ageing_filters c f = Except.error e) ∧
    (∀ c f a b, f.from_date = some a → f.to_date = some b → b < a →
      ∃ e, validate_ageing_filters c f = Except.error e) ∧
    (∀ c f a b, f.from_date = some a → f.to_date = some b → a ≤ b →
      ¬(SLE_COUNT_LIMIT < c ∧ f.item_code = none ∧ f.warehouse = none ∧
        f.warehouse_type = none) →
      validate_ageing_filters c f = Except.ok ()) := by
  refine ⟨?_, ?_, ?_⟩
  · intro c f hc hdates
    unfold validate_ageing_filters
    split_ifs with h1 h2 h3 h4
    · exact ⟨_, rfl⟩
    · exact ⟨_, rfl⟩
    · exact ⟨_, rfl⟩
    · exact ⟨_, rfl⟩
    · rcases hdates with h | h
      · exact absurd h h3
      · exact absurd h h4
  · intro c f a b hfrom hto hba
    have hd : datesOutOfOrder f = true := by
      unfold datesOutOfOrder
      rw [hfrom, hto]
      simpa using hba
    unfold validate_ageing_filters
    split_ifs with h1
    · exact ⟨_, rfl⟩
    · exact ⟨_, rfl⟩
  · intro c f a b hfrom hto hab hguard
    unfold validate_ageing_filters
    split_ifs with h1 h2 h3 h4
    · exact absurd h1 hguard
    · exfalso
      unfold datesOutOfOrder at h2
      rw [hfrom, hto] at h2
      simp at h2
      exact absurd h2 (not_lt.mpr hab)
    · rw [hfrom] at h3; exact absurd h3 (by simp)
    · rw [hto] at h4; exact absurd h4 (by simp)
    · rfl

/-- Witness for C9: a missing from-date over the threshold aborts, an
inverted date range aborts, valid filters pass. -/
theorem C9_witness :
    (∃ e, validate_ageing_filters 200001 ⟨none, none, none, none, some 5⟩ =
      Except.error e) ∧
    (∃ e, validate_ageing_filters 0 ⟨none, none, none, some 3, some 1⟩ =
      Except.error e) ∧
    validate_ageing_filters 0 ⟨none, none, none, some 1, some 2⟩ = Except.ok () :=
  ⟨C9_filter_validation.1 200001 _ (by norm_num [SLE_COUNT_LIMIT]) (Or.inl rfl),
   C9_filter_validation.2.1 0 _ 3 1 rfl rfl (by norm_num),
   C9_filter_validation.2.2 0 _ 1 2 rfl rfl (by norm_num)
     (by intro hcontra; exact absurd hcontra.1 (by norm_num [SLE_COUNT_LIMIT]))⟩

/-- Every free-stock value produced by the walk is nonnegative, and a
batch with non-positive balance always receives free stock `0`. -/
theorem walkFree_nonneg (l : List BatchInfo) :
    ∀ (r : ℚ) p, p ∈ walkFree r l → 0 ≤ p.2 ∧ (p.1.bal_qty ≤ 0 → p.2 = 0) := by
  induction l with
  | nil => intro r p hp; simp [walkFree] at hp
  | cons b rest ih =>
    intro r p hp
    unfold walkFree at hp
    split_ifs at hp with h1 h2
    · rcases List.mem_cons.mp hp with rfl | htail
      · exact ⟨le_refl 0, fun _ => rfl⟩
      · exact ih r p htail
    · rcases List.mem_cons.mp hp with rfl | htail
      · exact ⟨le_refl 0, fun _ => rfl⟩
      · exact ih _ p htail
    · rcases List.mem_cons.mp hp with rfl | htail
      · refine ⟨?_, fun hneg => absurd hneg h1⟩
        have := lt_of_not_ge h2
        simp only []
        linarith
      · exact ih 0 p htail

/-- C7.  Every (batch, free stock) pair computed by
`calculate_free_stock` carries a nonnegative free-stock value, and a
batch whose balance quantity is zero or negative is reported with
exactly `0` free stock. -/
theorem C7_free_stock_nonneg (reserved : ℚ) (batches : List BatchInfo)
    (p : BatchInfo × ℚ) (hp : p ∈ calculate_free_stock reserved batches) :
    0 ≤ p.2 ∧ (p.1.bal_qty ≤ 0 → p.2 = 0) :=
  walkFree_nonneg (sort_batches batches) reserved p hp

/-- Witness for C7 at the two-batch example of the spec. -/
theorem C7_witness :
    ((⟨2, 10, some 201⟩, (8 : ℚ)) ∈
      calculate_free_stock 12 [⟨1, 10, some 101⟩, ⟨2, 10, some 201⟩]) ∧
    (0 ≤ (8 : ℚ) ∧ ((10 : ℚ) ≤ 0 → (8 : ℚ) = 0)) := by
  have h : calculate_free_stock 12 [⟨1, 10, some 101⟩, ⟨2, 10, some 201⟩] =
      [(⟨1, 10, some 101⟩, 0), (⟨2, 10, some 201⟩, 8)] := by
    norm_num [calculate_free_stock, sort_batches, insertBatch, batchLE, batchKey,
      walkFree]
  have hm : (⟨2, 10, some 201⟩, (8 : ℚ)) ∈
      calculate_free_stock 12 [⟨1, 10, some 101⟩, ⟨2, 10, some 201⟩] := by
    rw [h]; simp
  exact ⟨hm, C7_free_stock_nonneg 12 _ _ hm⟩

/-- `filterMap` with an if-guarded `some` is a filter followed by a
map. -/
theorem filterMap_guard {α β : Type} (p : α → Prop) [DecidablePred p] (f : α → β)
    (l : List α) :
    l.filterMap (fun a => if p a then some (f a) else none) =
      (l.filter (fun a => decide (p a))).map f := by
  induction l with
  | nil => rfl
  | cons a l ih =>
    by_cases h : p a
    · simp [List.filterMap_cons, List.filter_cons, h, ih]
    · simp [List.filterMap_cons, List.filter_cons, h, ih]

/-- C10.  Every row emitted by the batch-wise ageing report has strictly
positive balance quantity; the emitted rows are exactly the
positive-balance entries of the computed (batch, free stock) list, so
batches with zero or negative balance are computed but omitted. -/
theorem C10_rows_positive_balance :
    (∀ (reserved : ℚ) (batches : List BatchInfo) row,
      row ∈ build_report_rows reserved batches → 0 < row.balance_qty) ∧
    (∀ (reserved : ℚ) (batches : List BatchInfo),
      build_report_rows reserved batches =
        ((calculate_free_stock reserved batches).filter
          (fun p => decide (0 < p.1.bal_qty))).map
          (fun p : BatchInfo × ℚ => (⟨p.1.batch_no, p.1.bal_qty, p.2⟩ : AgeRow))) := by
  constructor
  · intro reserved batches row hrow
    unfold build_report_rows at hrow
    rcases List.mem_filterMap.mp hrow with ⟨p, _, hsome⟩
    by_cases h : 0 < p.1.bal_qty
    · rw [if_pos h] at hsome
      cases hsome
      exact h
    · rw [if_neg h] at hsome
      cases hsome
  · intro reserved batches
    exact filterMap_guard (fun p : BatchInfo × ℚ => 0 < p.1.bal_qty)
      (fun p : BatchInfo × ℚ => (⟨p.1.batch_no, p.1.bal_qty, p.2⟩ : AgeRow)) _

/-- Witness for C10: a negative-balance batch is computed but omitted,
the emitted row has positive balance. -/
theorem C10_witness :
    ((⟨2, (7 : ℚ), (4 : ℚ)⟩ : AgeRow) ∈
      build_report_rows 3 [⟨1, -5, some 101⟩, ⟨2, 7, some 201⟩]) ∧
    0 < ((⟨2, (7 : ℚ), (4 : ℚ)⟩ : AgeRow)).balance_qty := by
  have h : build_report_rows 3 [⟨1, -5, some 101⟩, ⟨2, 7, some 201⟩] =
      [⟨2, 7, 4⟩] := by
    norm_num [build_report_rows, calculate_free_stock, sort_batches, insertBatch,
      batchLE, batchKey, walkFree, List.filterMap]
  have hm : (⟨2, (7 : ℚ), (4 : ℚ)⟩ : AgeRow) ∈
      build_report_rows 3 [⟨1, -5, some 101⟩, ⟨2, 7, some 201⟩] := by
    rw [h]; simp
  exact ⟨hm, C10_rows_positive_balance.1 3 _ _ hm⟩

/-- C8.  In both pivoted free-stock reports, a row whose considered
numeric (Float/Currency/Int) fields — all of them except the unit-price
fields — are each `0` or null is dropped, and a row with some nonzero
considered numeric field is kept. -/
theorem C8_zero_row_scrub (cols : List Col) (rows : List Row) (r : Row)
    (hr : r ∈ rows) :
    ((∀ f ∈ numeric_fields_lc cols, ¬nonzeroAt r f) →
      r ∉ scrub_zero_rows cols rows) ∧
    ((∃ f ∈ numeric_fields_lc cols, nonzeroAt r f) →
      r ∈ scrub_zero_rows cols rows) ∧
    ((∀ f ∈ numeric_fields_fs cols, ¬nonzeroAt r f) →
      r ∉ remove_all_zero_rows cols rows) ∧
    ((∃ f ∈ numeric_fields_fs cols, nonzeroAt r f) →
      r ∈ remove_all_zero_rows cols rows) := by
  refine ⟨?_, ?_, ?_, ?_⟩
  · intro hall hmem
    have := (List.mem_filter.mp hmem).2
    rcases List.any_eq_true.mp this with ⟨f, hf, hnz⟩
    exact hall f hf (of_decide_eq_true hnz)
  · intro hex
    rcases hex with ⟨f, hf, hnz⟩
    refine List.mem_filter.mpr ⟨hr, ?_⟩
    exact List.any_eq_true.mpr ⟨f, hf, decide_eq_true hnz⟩
  · intro hall hmem
    unfold remove_all_zero_rows at hmem
    split_ifs at hmem with hempty
    · simp at hmem
    · have := (List.mem_filter.mp hmem).2
      rcases List.any_eq_true.mp this with ⟨f, hf, hnz⟩
      exact hall f hf (of_decide_eq_true hnz)
  · intro hex
    rcases hex with ⟨f, hf, hnz⟩
    unfold remove_all_zero_rows
    split_ifs with hempty
    · rcases hempty with hrows | hcols
      · rw [hrows] at hr; simp at hr
      · rw [hcols] at hf; simp [numeric_fields_fs] at hf
    · exact List.mem_filter.mpr ⟨hr,
        List.any_eq_true.mpr ⟨f, hf, decide_eq_true hnz⟩⟩

/-- Witness for C8: a row whose only considered numeric field holds `5`
is kept, a row whose considered numeric field holds `0` is dropped (even
though its unit-price field is nonzero), by both scrub functions. -/
theorem C8_witness :
    ([("qty", some 5)] ∈ scrub_zero_rows
        [⟨"unit_price", "Currency"⟩, ⟨"qty", "Float"⟩]
        [[("qty", some 5)], [("qty", some 0), ("unit_price", some 7)]]) ∧
    ([("qty", some 0), ("unit_price", some 7)] ∉ scrub_zero_rows
        [⟨"unit_price", "Currency"⟩, ⟨"qty", "Float"⟩]
        [[("qty", some 5)], [("qty", some 0), ("unit_price", some 7)]]) ∧
    ([("qty", some 5)] ∈ remove_all_zero_rows
        [⟨"unit_price", "Currency"⟩, ⟨"qty", "Float"⟩]
        [[("qty", some 5)], [("qty", some 0), ("unit_price", some 7)]]) ∧
    ([("qty", some 0), ("unit_price", some 7)] ∉ remove_all_zero_rows
        [⟨"unit_price", "Currency"⟩, ⟨"qty", "Float"⟩]
        [[("qty", some 5)], [("qty", some 0), ("unit_price", some 7)]]) := by
  have hfields_lc : numeric_fields_lc
      [⟨"unit_price", "Currency"⟩, ⟨"qty", "Float"⟩] = ["qty"] := by decide
  have hfields_fs : numeric_fields_fs
      [⟨"unit_price", "Currency"⟩, ⟨"qty", "Float"⟩] = ["qty"] := by decide
  have hq1 : rget [("qty", some 5)] "qty" = some 5 := rfl
  have hq2 : rget [("qty", some 0), ("unit_price", some 7)] "qty" = some 0 := rfl
  have h1 : nonzeroAt [("qty", some 5)] "qty" := by
    unfold nonzeroAt
    rw [hq1]
    exact ⟨by simp, by norm_num⟩
  have h2 : ¬nonzeroAt [("qty", some 0), ("unit_price", some 7)] "qty" := by
    intro hcon
    exact hcon.2 hq2
  have hmem1 : ([("qty", some 5)] : Row) ∈
      [[("qty", some 5)], [("qty", some 0), ("unit_price", some 7)]] := by simp
  have hmem2 : ([("qty", some 0), ("unit_price", some 7)] : Row) ∈
      [[("qty", some 5)], [("qty", some 0), ("unit_price", some 7)]] := by simp
  refine ⟨?_, ?_, ?_, ?_⟩
  · exact (C8_zero_row_scrub _ _ _ hmem1).2.1 ⟨"qty", by rw [hfields_lc]; simp, h1⟩
  · exact (C8_zero_row_scrub _ _ _ hmem2).1
      (by rw [hfields_lc]; intro f hf; simp at hf; rw [hf]; exact h2)
  · exact (C8_zero_row_scrub _ _ _ hmem1).2.2.2
      ⟨"qty", by rw [hfields_fs]; simp, h1⟩
  · exact (C8_zero_row_scrub _ _ _ hmem2).2.2.1
      (by rw [hfields_fs]; intro f hf; simp at hf; rw [hf]; exact h2)

/-- `posPart` is nonnegative. -/
theorem posPart_nonneg (q : ℚ) : 0 ≤ posPart q := le_max_right q 0

/-- Shifting the accumulator of the consumed-balance scan shifts every
output element. -/
theorem scanl_consumed_shift (l : List BatchInfo) :
    ∀ c d : ℚ, l.scanl (fun acc b => acc + posPart b.bal_qty) (c + d) =
      (l.scanl (fun acc b => acc + posPart b.bal_qty) c).map (· + d) := by
  induction l with
  | nil => intro c d; simp [List.scanl]
  | cons b l ih =>
    intro c d
    rw [List.scanl_cons, List.scanl_cons]
    have harith : c + d + posPart b.bal_qty = c + posPart b.bal_qty + d := by ring
    rw [harith, ih (c + posPart b.bal_qty) d]
    simp

/-- Every element of the consumed-balance scan is at least the starting
accumulator. -/
theorem scanl_consumed_ge (l : List BatchInfo) :
    ∀ (c : ℚ) x, x ∈ l.scanl (fun acc b => acc + posPart b.bal_qty) c → c ≤ x := by
  induction l with
  | nil => intro c x hx; simp [List.scanl] at hx; exact hx ▸ le_refl c
  | cons b l ih =>
    intro c x hx
    rw [List.scanl_cons] at hx
    rcases List.mem_cons.mp (by simpa using hx) with rfl | htail
    · exact le_refl x
    · calc c ≤ c + posPart b.bal_qty := le_add_of_nonneg_right (posPart_nonneg _)
        _ ≤ x := ih _ x htail

/-- The sequential walk of `calculate_free_stock` agrees with the
positional closed form `specAgeing` on any batch list, for nonnegative
reserved quantity. -/
theorem walkFree_eq_specAgeing (l : List BatchInfo) :
    ∀ r : ℚ, 0 ≤ r → walkFree r l = specAgeing r l := by
  induction l with
  | nil => intro r _; simp [walkFree, specAgeing]
  | cons b l ih =>
    intro r hr
    unfold specAgeing
    rw [List.scanl_cons, zero_add]
    have hshift := scanl_consumed_shift l 0 (posPart b.bal_qty)
    rw [zero_add] at hshift
    rw [hshift]
    simp only [List.cons_append, List.nil_append, List.zip_cons_cons,
      List.zip_map_right, List.map_cons, List.map_map]
    by_cases h1 : b.bal_qty ≤ 0
    · have hd : posPart b.bal_qty = 0 := max_eq_right h1
      rw [hd]
      unfold walkFree
      rw [if_pos h1, ih r hr]
      unfold specAgeing
      congr 1
      · simp [freeFormula, h1]
      · simp
    · have hbpos : 0 < b.bal_qty := lt_of_not_ge h1
      have hd : posPart b.bal_qty = b.bal_qty := max_eq_left (le_of_lt hbpos)
      rw [hd]
      by_cases h2 : r ≥ b.bal_qty
      · unfold walkFree
        rw [if_neg h1, if_pos h2, ih (r - b.bal_qty) (by linarith)]
        unfold specAgeing
        congr 1
        · have : freeFormula r b 0 = 0 := by
            unfold freeFormula posPart
            rw [if_neg h1]
            have hmr : max (r - 0) 0 = r := by
              rw [sub_zero]; exact max_eq_left hr
            rw [hmr]
            exact max_eq_right (by linarith)
          rw [this]
        · apply List.map_congr_left
          intro p _
          simp only [Function.comp, Prod.map, id_eq, freeFormula]
          by_cases hp : p.1.bal_qty ≤ 0
          · rw [if_pos hp, if_pos hp]
          · rw [if_neg hp, if_neg hp]
            have harg : r - (p.2 + b.bal_qty) = r - b.bal_qty - p.2 := by ring
            rw [harg]
      · unfold walkFree
        rw [if_neg h1, if_neg h2, ih 0 (le_refl 0)]
        unfold specAgeing
        have hrb : r < b.bal_qty := lt_of_not_ge h2
        congr 1
        · have : freeFormula r b 0 = b.bal_qty - r := by
            unfold freeFormula posPart
            rw [if_neg h1]
            have hmr : max (r - 0) 0 = r := by
              rw [sub_zero]; exact max_eq_left hr
            rw [hmr]
            exact max_eq_left (by linarith)
          rw [this]
        · apply List.map_congr_left
          intro p hp
          obtain ⟨p1, p2⟩ := p
          have hp2 : 0 ≤ p2 := by
            have := List.of_mem_zip hp
            exact scanl_consumed_ge l 0 p2 this.2
          simp only [Function.comp, Prod.map, id_eq, freeFormula]
          by_cases hq : p1.bal_qty ≤ 0
          · rw [if_pos hq, if_pos hq]
          · rw [if_neg hq, if_neg hq]
            have hz1 : posPart (r - (p2 + b.bal_qty)) = 0 := by
              unfold posPart
              exact max_eq_right (by linarith)
            have hz2 : posPart (0 - p2) = 0 := by
              unfold posPart
              exact max_eq_right (by linarith)
            rw [hz1, hz2]

/-- C1 counterexample.  On a negative-balance batch the code skips the
batch (leaving the reserved quantity unchanged) while the claim's rule
would reduce the reserved quantity by the negative balance: with batches
`[{bal: -5, mfg: 101}, {bal: 10, mfg: 201}]` and reserved `3`, the code
gives the second batch free stock `7`, the claim's walk gives it `2`. -/
theorem C1_counterexample :
    calculate_free_stock 3 [⟨1, -5, some 101⟩, ⟨2, 10, some 201⟩] =
      [(⟨1, -5, some 101⟩, 0), (⟨2, 10, some 201⟩, 7)] ∧
    calculateFreeStockClaim 3 [⟨1, -5, some 101⟩, ⟨2, 10, some 201⟩] =
      [(⟨1, -5, some 101⟩, 0), (⟨2, 10, some 201⟩, 2)] := by
  constructor
  · norm_num [calculate_free_stock, sort_batches, insertBatch, batchLE, batchKey,
      walkFree]
  · norm_num [calculateFreeStockClaim, sort_batches, insertBatch, batchLE,
      batchKey, walkClaim]

/-- C1 (amended).  For nonnegative reserved quantity,
`calculate_free_stock` sorts the batches by manufacturing date (missing
dates last) and assigns every batch the free stock demanded by the
walk-with-skip rule, in closed form: a batch with non-positive balance
gets `0` with the reserved quantity unchanged, and any other batch gets
`max 0 (balance − max 0 (reserved − positive balance standing before
it))`.  In particular the spec's two-batch example yields free stocks
`0` and `8`. -/
theorem C1_ageing_walk (reserved : ℚ) (batches : List BatchInfo)
    (h : 0 ≤ reserved) :
    calculate_free_stock reserved batches =
      specAgeing reserved (sort_batches batches) ∧
    calculate_free_stock 12 [⟨1, 10, some 101⟩, ⟨2, 10, some 201⟩] =
      [(⟨1, 10, some 101⟩, 0), (⟨2, 10, some 201⟩, 8)] := by
  constructor
  · exact walkFree_eq_specAgeing (sort_batches batches) reserved h
  · norm_num [calculate_free_stock, sort_batches, insertBatch, batchLE, batchKey,
      walkFree]

/-- Witness for C1 at the spec's two-batch example. -/
theorem C1_witness :
    (0 : ℚ) ≤ 12 ∧
    calculate_free_stock 12 [⟨1, 10, some 101⟩, ⟨2, 10, some 201⟩] =
      specAgeing 12 (sort_batches [⟨1, 10, some 101⟩, ⟨2, 10, some 201⟩]) :=
  ⟨by norm_num,
   (C1_ageing_walk 12 [⟨1, 10, some 101⟩, ⟨2, 10, some 201⟩] (by norm_num)).1⟩

/-- A lot list of nonnegative quantities has nonnegative total. -/
theorem sumQty_nonneg (l : List Lot) (h : ∀ x ∈ l, 0 ≤ x.qty) : 0 ≤ sumQty l := by
  induction l with
  | nil => simp [sumQty]
  | cons a l ih =>
    simp only [sumQty, List.map_cons, List.sum_cons]
    have ha := h a (List.mem_cons_self a l)
    have hl := ih (fun x hx => h x (List.mem_cons_of_mem a hx))
    simp only [sumQty] at hl
    linarith

/-- The allocation loop conserves quantity: allocation plus remaining lot
total equals starting allocation plus starting lot total. -/
theorem allocLoop_conserve (l : List Lot) :
    ∀ a n al : ℚ, (allocLoop a n al l).1 + sumQty (allocLoop a n al l).2 =
      al + sumQty l := by
  induction l with
  | nil => intro a n al; simp [allocLoop, sumQty]
  | cons lot rest ih =>
    intro a n al
    unfold allocLoop
    split_ifs with h
    · rfl
    · simp only [sumQty, List.map_cons, List.sum_cons]
      have := ih a (n - min lot.qty (min n (a - al)))
        (al + min lot.qty (min n (a - al)))
      simp only [sumQty] at this
      linarith

/-- The loop's allocation never exceeds `available` when it starts below
it. -/
theorem allocLoop_le_avail (l : List Lot) :
    ∀ a n al : ℚ, al ≤ a → (allocLoop a n al l).1 ≤ a := by
  induction l with
  | nil => intro a n al h; simpa [allocLoop] using h
  | cons lot rest ih =>
    intro a n al h
    unfold allocLoop
    split_ifs with hbreak
    · exact h
    · push_neg at hbreak
      have htake : min lot.qty (min n (a - al)) ≤ a - al :=
        le_trans (min_le_right _ _) (min_le_right _ _)
      exact ih a _ _ (by linarith)

/-- The loop's allocation never exceeds starting allocation plus
demand. -/
theorem allocLoop_le_need (l : List Lot) :
    ∀ a n al : ℚ, 0 ≤ n → (allocLoop a n al l).1 ≤ al + n := by
  induction l with
  | nil => intro a n al h; simp [allocLoop]; linarith
  | cons lot rest ih =>
    intro a n al h
    unfold allocLoop
    split_ifs with hbreak
    · simp only []; linarith
    · push_neg at hbreak
      have htake : min lot.qty (min n (a - al)) ≤ n :=
        le_trans (min_le_right _ _) (min_le_left _ _)
      have := ih a (n - min lot.qty (min n (a - al)))
        (al + min lot.qty (min n (a - al))) (by linarith)
      linarith

/-- The loop's allocation never exceeds starting allocation plus the
total lot quantity, for nonnegative lots. -/
theorem allocLoop_le_sum (l : List Lot) :
    ∀ a n al : ℚ, (∀ x ∈ l, 0 ≤ x.qty) → (allocLoop a n al l).1 ≤ al + sumQty l := by
  induction l with
  | nil => intro a n al _; simp [allocLoop, sumQty]
  | cons lot rest ih =>
    intro a n al hl
    unfold allocLoop
    split_ifs with hbreak
    · have := sumQty_nonneg (lot :: rest) hl
      simp only []
      linarith
    · have htake : min lot.qty (min n (a - al)) ≤ lot.qty := min_le_left _ _
      have := ih a (n - min lot.qty (min n (a - al)))
        (al + min lot.qty (min n (a - al)))
        (fun x hx => hl x (List.mem_cons_of_mem lot hx))
      simp only [sumQty, List.map_cons, List.sum_cons] at *
      linarith

/-- The loop's allocation never decreases, for nonnegative lots. -/
theorem allocLoop_ge_start (l : List Lot) :
    ∀ a n al : ℚ, (∀ x ∈ l, 0 ≤ x.qty) → al ≤ (allocLoop a n al l).1 := by
  induction l with
  | nil => intro a n al _; simp [allocLoop]
  | cons lot rest ih =>
    intro a n al hl
    unfold allocLoop
    split_ifs with hbreak
    · simp only []; exact le_refl al
    · push_neg at hbreak
      have hq := hl lot (List.mem_cons_self lot rest)
      have htake : 0 ≤ min lot.qty (min n (a - al)) :=
        le_min hq (le_min (by linarith [hbreak.1]) (by linarith [hbreak.2]))
      have := ih a (n - min lot.qty (min n (a - al)))
        (al + min lot.qty (min n (a - al)))
        (fun x hx => hl x (List.mem_cons_of_mem lot hx))
      linarith

/-- The loop never drives a lot quantity negative. -/
theorem allocLoop_lots_nonneg (l : List Lot) :
    ∀ a n al : ℚ, (∀ x ∈ l, 0 ≤ x.qty) →
      ∀ x ∈ (allocLoop a n al l).2, 0 ≤ x.qty := by
  induction l with
  | nil => intro a n al _ x hx; simp [allocLoop] at hx
  | cons lot rest ih =>
    intro a n al hl x hx
    unfold allocLoop at hx
    split_ifs at hx with hbreak
    · exact hl x hx
    · simp only [List.mem_cons] at hx
      rcases hx with rfl | hx
    -- x is the consumed head lot
      · have hq := hl lot (List.mem_cons_self lot rest)
        have htake : min lot.qty (min n (a - al)) ≤ lot.qty := min_le_left _ _
        simp only []
        linarith
      · exact ih a _ _ (fun y hy => hl y (List.mem_cons_of_mem lot hy)) x hx

/-- C2 counterexample.  The contract `allocated ≤ min(D, Σ qty)` fails
for a negative row demand (the allocator returns `0 > D`) and would also
fail for a negative lot quantity, which the source query rules out. -/
theorem C2_counterexample :
    ((allocatePass 8 (-1) [⟨5, 1⟩, ⟨3, 2⟩]).1 = 0 ∧
      ¬((allocatePass 8 (-1) [⟨5, 1⟩, ⟨3, 2⟩]).1 ≤
        min (-1) (sumQty [⟨5, 1⟩, ⟨3, 2⟩]))) ∧
    ((allocatePass 8 4 [⟨5, 1⟩, ⟨-3, 2⟩]).1 = 4 ∧
      ¬((allocatePass 8 4 [⟨5, 1⟩, ⟨-3, 2⟩]).1 ≤
        min 4 (sumQty [⟨5, 1⟩, ⟨-3, 2⟩]))) := by
  constructor
  · constructor
    · norm_num [allocatePass, allocLoop]
    · norm_num [allocatePass, allocLoop, sumQty, min_def]
  · constructor
    · norm_num [allocatePass, allocLoop, min_def]
    · norm_num [allocatePass, allocLoop, sumQty, min_def]

/-- C2 (amended).  For a nonnegative row demand and the nonnegative lots
produced by the FIFO query, one allocation pass allocates at most
`min(D, Σ qty)` and leaves the lots' remaining quantities summing to the
original total minus the allocation; the spec's example allocates 5 from
the first lot and 1 from the second. -/
theorem C2_fifo_contract (a n : ℚ) (l : List Lot) (hn : 0 ≤ n)
    (hl : ∀ x ∈ l, 0 ≤ x.qty) :
    (allocatePass a n l).1 ≤ min n (sumQty l) ∧
    sumQty (allocatePass a n l).2 = sumQty l - (allocatePass a n l).1 ∧
    allocatePass 8 6 [⟨5, 1⟩, ⟨3, 2⟩] = (6, [⟨0, 1⟩, ⟨2, 2⟩]) := by
  refine ⟨?_, ?_, ?_⟩
  · unfold allocatePass
    split_ifs with ha
    · exact le_min (by simpa using allocLoop_le_need l a n 0 hn)
        (by simpa using allocLoop_le_sum l a n 0 hl)
    · exact le_min (by simpa using hn) (by simpa using sumQty_nonneg l hl)
  · unfold allocatePass
    split_ifs with ha
    · have := allocLoop_conserve l a n 0
      linarith
    · simp
  · norm_num [allocatePass, allocLoop, min_def]

/-- Witness for C2 at the spec's example. -/
theorem C2_witness :
    (0 : ℚ) ≤ 6 ∧ (∀ x ∈ [(⟨5, 1⟩ : Lot), ⟨3, 2⟩], 0 ≤ x.qty) ∧
    (allocatePass 8 6 [⟨5, 1⟩, ⟨3, 2⟩]).1 ≤ min 6 (sumQty [⟨5, 1⟩, ⟨3, 2⟩]) := by
  have hl : ∀ x ∈ [(⟨5, 1⟩ : Lot), ⟨3, 2⟩], 0 ≤ x.qty := by
    intro x hx
    rcases List.mem_cons.mp hx with rfl | hx
    · norm_num
    · rcases List.mem_cons.mp hx with rfl | hx
      · norm_num
      · simp at hx
  exact ⟨by norm_num, hl,
    (C2_fifo_contract 8 6 [⟨5, 1⟩, ⟨3, 2⟩] (by norm_num) hl).1⟩

/-- One pass allocates a nonnegative amount not exceeding nonnegative
starting stock. -/
theorem allocatePass_le_stock (a n : ℚ) (l : List Lot) (ha : 0 ≤ a) :
    (allocatePass a n l).1 ≤ a := by
  unfold allocatePass
  split_ifs with h
  · exact allocLoop_le_avail l a n 0 ha
  · simpa using ha

/-- One pass preserves lot nonnegativity. -/
theorem allocatePass_lots_nonneg (a n : ℚ) (l : List Lot)
    (hl : ∀ x ∈ l, 0 ≤ x.qty) : ∀ x ∈ (allocatePass a n l).2, 0 ≤ x.qty := by
  unfold allocatePass
  split_ifs with h
  · exact allocLoop_lots_nonneg l a n 0 hl
  · simpa using hl

/-- C3.  Invariants of the allocation state: a pass never drives a lot's
remaining quantity negative, and the cumulative quantity allocated for
one (item, company) scope across all sales-order rows of a run never
exceeds the scope's (nonnegative) available stock at the start of the
run, with all lots still nonnegative at the end. -/
theorem C3_allocation_invariants :
    (∀ (a n : ℚ) (l : List Lot), (∀ x ∈ l, 0 ≤ x.qty) →
      ∀ x ∈ (allocatePass a n l).2, 0 ≤ x.qty) ∧
    (∀ (stock : ℚ) (lots : List Lot) (ds : List ℚ), 0 ≤ stock →
      (∀ x ∈ lots, 0 ≤ x.qty) →
      (runDemands stock lots ds).1 ≤ stock ∧
      ∀ x ∈ (runDemands stock lots ds).2.2, 0 ≤ x.qty) := by
  constructor
  · exact allocatePass_lots_nonneg
  · intro stock lots ds
    induction ds generalizing stock lots with
    | nil =>
      intro hs hl
      exact ⟨by simpa [runDemands] using hs, by simpa [runDemands] using hl⟩
    | cons d ds ih =>
      intro hs hl
      have hone : (allocatePass stock d lots).1 ≤ stock :=
        allocatePass_le_stock stock d lots hs
      have hlots : ∀ x ∈ (allocatePass stock d lots).2, 0 ≤ x.qty :=
        allocatePass_lots_nonneg stock d lots hl
      have hrest := ih (max (stock - (allocatePass stock d lots).1) 0)
        (allocatePass stock d lots).2 (le_max_right _ _) hlots
      constructor
      · unfold runDemands
        have hmax : max (stock - (allocatePass stock d lots).1) 0 =
            stock - (allocatePass stock d lots).1 :=
          max_eq_left (by linarith)
        have h1 := hrest.1
        rw [hmax] at h1
        simp only []
        linarith
      · unfold runDemands
        exact hrest.2

/-- Witness for C3 with stock 8, two lots, and two demands. -/
theorem C3_witness :
    (0 : ℚ) ≤ 8 ∧
    ((runDemands 8 [⟨5, 1⟩, ⟨3, 2⟩] [6, 4]).1 ≤ 8 ∧
      ∀ x ∈ (runDemands 8 [⟨5, 1⟩, ⟨3, 2⟩] [6, 4]).2.2, 0 ≤ x.qty) := by
  have hl : ∀ x ∈ [(⟨5, 1⟩ : Lot), ⟨3, 2⟩], 0 ≤ x.qty := by
    intro x hx
    rcases List.mem_cons.mp hx with rfl | hx
    · norm_num
    · rcases List.mem_cons.mp hx with rfl | hx
      · norm_num
      · simp at hx
  exact ⟨by norm_num, C3_allocation_invariants.2 8 _ [6, 4] (by norm_num) hl⟩

/-- Dictionary lookup after one write. -/
theorem getR_cons (k' : Nat × Nat) (v : ℚ) (m : RateMap) (k : Nat × Nat) :
    getR ((k', v) :: m) k = if k' = k then v else getR m k := by
  by_cases h : k' = k
  · rw [if_pos h]
    unfold getR
    rw [List.find?_cons_of_pos _ (by simp [h])]
  · rw [if_neg h]
    unfold getR
    rw [List.find?_cons_of_neg _ (by simp [h])]

/-- Lookup in a map built from a key list by a value function. -/
theorem getR_map_keys (v : Nat × Nat → ℚ) (k : Nat × Nat) :
    ∀ ks : List (Nat × Nat),
      getR (ks.map (fun x => (x, v x))) k = if k ∈ ks then v k else 0 := by
  intro ks
  induction ks with
  | nil => simp [getR]
  | cons k0 ks ih =>
    rw [List.map_cons, getR_cons]
    by_cases h : k0 = k
    · subst h
      simp
    · rw [if_neg h, ih]
      by_cases hm : k ∈ ks
      · rw [if_pos hm, if_pos (List.mem_cons_of_mem k0 hm)]
      · rw [if_neg hm, if_neg ?_]
        intro hc
        rcases List.mem_cons.mp hc with hh | hh
        · exact h hh.symm
        · exact hm hh

/-- Phase 1 reads back as the weighted stock valuation of the key (and
`0`, which equals `0 / 0`, for a key with no positive-quantity bins). -/
theorem getR_phase1 (bins : List BinRow) (codes : List Nat) (k : Nat × Nat) :
    getR (phase1 bins codes) k = gVal bins codes k / gQty bins codes k := by
  unfold phase1
  rw [getR_map_keys]
  by_cases h : k ∈ groupKeys bins codes
  · rw [if_pos h]
  · rw [if_neg h]
    have hfil : (stockBins bins codes).filter
        (fun b => decide ((b.item, b.company) = k)) = [] := by
      rw [List.filter_eq_nil_iff]
      intro b hb
      simp only [decide_eq_true_eq]
      intro hk
      apply h
      unfold groupKeys
      rw [List.mem_dedup]
      exact List.mem_map.mpr ⟨b, hb, hk⟩
    unfold gVal gQty
    rw [hfil]
    simp

/-- A write at a different key leaves a lookup unchanged. -/
theorem stepCo_other (pos : List PurchaseOrder) (it : Nat) (m : RateMap) (co : Nat)
    (k : Nat × Nat) (h : (it, co) ≠ k) :
    getR (stepCo pos it m co) k = getR m k := by
  unfold stepCo
  split_ifs with hz
  · rfl
  · rw [getR_cons, if_neg h]

/-- An inner-loop step preserves a nonzero lookup. -/
theorem stepCo_keep_nonzero (pos : List PurchaseOrder) (it : Nat) (m : RateMap)
    (co : Nat) (k : Nat × Nat) (h : getR m k ≠ 0) :
    getR (stepCo pos it m co) k = getR m k := by
  unfold stepCo
  split_ifs with hz
  · rfl
  · push_neg at hz
    rw [getR_cons]
    by_cases hk : (it, co) = k
    · exact absurd (hk ▸ hz) h
    · rw [if_neg hk]

/-- An inner-loop step either leaves a lookup unchanged or sets it to the
fallback value of that key. -/
theorem stepCo_val (pos : List PurchaseOrder) (it : Nat) (m : RateMap) (co : Nat)
    (k : Nat × Nat) :
    getR (stepCo pos it m co) k = getR m k ∨
      getR (stepCo pos it m co) k = fb pos k := by
  unfold stepCo
  split_ifs with hz
  · left; rfl
  · rw [getR_cons]
    by_cases hk : (it, co) = k
    · right
      rw [if_pos hk, ← hk]
      rfl
    · left
      rw [if_neg hk]

/-- The inner loop preserves a nonzero lookup. -/
theorem innerFold_keep_nonzero (pos : List PurchaseOrder) (it : Nat) (k : Nat × Nat) :
    ∀ (cos : List Nat) (m : RateMap), getR m k ≠ 0 →
      getR (List.foldl (stepCo pos it) m cos) k = getR m k := by
  intro cos
  induction cos with
  | nil => intro m _; rfl
  | cons co cos ih =>
    intro m h
    rw [List.foldl_cons]
    have hstep := stepCo_keep_nonzero pos it m co k h
    rw [ih _ (by rw [hstep]; exact h), hstep]

/-- The inner loop preserves a lookup already holding the key's fallback
value. -/
theorem innerFold_keep_fb (pos : List PurchaseOrder) (it : Nat) (k : Nat × Nat) :
    ∀ (cos : List Nat) (m : RateMap), getR m k = fb pos k →
      getR (List.foldl (stepCo pos it) m cos) k = fb pos k := by
  intro cos
  induction cos with
  | nil => intro m h; exact h
  | cons co cos ih =>
    intro m h
    rw [List.foldl_cons]
    rcases stepCo_val pos it m co k with hv | hv
    · exact ih _ (by rw [hv, h])
    · exact ih _ hv

/-- Once the inner loop visits the key's own company with the lookup
still zero (or already at the fallback), the lookup ends at the
fallback value. -/
theorem innerFold_hit (pos : List PurchaseOrder) (it : Nat) (k : Nat × Nat) :
    ∀ (cos : List Nat) (m : RateMap), k.1 = it → k.2 ∈ cos →
      (getR m k = 0 ∨ getR m k = fb pos k) →
      getR (List.foldl (stepCo pos it) m cos) k = fb pos k := by
  intro cos
  induction cos with
  | nil => intro m _ hmem _; simp at hmem
  | cons co cos ih =>
    intro m hk1 hmem hval
    rw [List.foldl_cons]
    by_cases hco : co = k.2
    · have hkey : (it, co) = k := by rw [← hk1, hco]
      have hwrite : ∀ m' : RateMap, getR m' k = 0 →
          getR (stepCo pos it m' co) k = fb pos k := by
        intro m' h0
        unfold stepCo
        rw [if_neg (by rw [hkey]; simp [h0])]
        rw [getR_cons, if_pos hkey, ← hkey]
        rfl
      have hafter : getR (stepCo pos it m co) k = fb pos k := by
        rcases hval with h0 | hfb
        · exact hwrite m h0
        · by_cases hz : getR m k = 0
          · exact hwrite m hz
          · rw [stepCo_keep_nonzero pos it m co k hz]
            exact hfb
      exact innerFold_keep_fb pos it k cos _ hafter
    · have hne : (it, co) ≠ k := fun hc => hco (congrArg Prod.snd hc)
      have hmem2 : k.2 ∈ cos := by
        rcases List.mem_cons.mp hmem with hh | hh
        · exact absurd hh.symm hco
        · exact hh
      exact ih _ hk1 hmem2 (by rw [stepCo_other pos it m co k hne]; exact hval)

/-- The outer loop preserves a nonzero lookup. -/
theorem outerFold_keep_nonzero (pos : List PurchaseOrder) (cos : List Nat)
    (k : Nat × Nat) :
    ∀ (its : List Nat) (m : RateMap), getR m k ≠ 0 →
      getR (List.foldl (stepIt pos cos) m its) k = getR m k := by
  intro its
  induction its with
  | nil => intro m _; rfl
  | cons it its ih =>
    intro m h
    rw [List.foldl_cons]
    have hstep : getR (stepIt pos cos m it) k = getR m k :=
      innerFold_keep_nonzero pos it k cos m h
    rw [ih _ (by rw [hstep]; exact h), hstep]

/-- The inner loop leaves a lookup unchanged when it never writes the
key. -/
theorem innerFold_other (pos : List PurchaseOrder) (it : Nat) (k : Nat × Nat) :
    ∀ (cos : List Nat) (m : RateMap), (∀ co ∈ cos, (it, co) ≠ k) →
      getR (List.foldl (stepCo pos it) m cos) k = getR m k := by
  intro cos
  induction cos with
  | nil => intro m _; rfl
  | cons co cos ih =>
    intro m h
    rw [List.foldl_cons, ih _ (fun c hc => h c (List.mem_cons_of_mem co hc)),
      stepCo_other pos it m co k (h co (List.mem_cons_self co cos))]

/-- The outer loop preserves a lookup already at the key's fallback. -/
theorem outerFold_keep_fb (pos : List PurchaseOrder) (cos : List Nat)
    (k : Nat × Nat) :
    ∀ (its : List Nat) (m : RateMap), getR m k = fb pos k →
      getR (List.foldl (stepIt pos cos) m its) k = fb pos k := by
  intro its
  induction its with
  | nil => intro m h; exact h
  | cons it its ih =>
    intro m h
    rw [List.foldl_cons]
    by_cases hz : getR m k = 0
    · by_cases hhit : it = k.1
      -- either the inner loop rewrites the key to its fallback or it
      -- does not touch it at all; both end at the fallback
      · by_cases hmem : k.2 ∈ cos
        · exact ih _ (innerFold_hit pos it k cos m hhit.symm hmem (Or.inl hz))
        · have hother : getR (stepIt pos cos m it) k = getR m k :=
            innerFold_other pos it k cos m (fun c hc hceq =>
              hmem ((congrArg Prod.snd hceq) ▸ hc))
          exact ih _ (by rw [hother]; exact h)
      · have hother : getR (stepIt pos cos m it) k = getR m k :=
          innerFold_other pos it k cos m
            (fun c _ hceq => hhit (congrArg Prod.fst hceq))
        exact ih _ (by rw [hother]; exact h)
    · have hstep : getR (stepIt pos cos m it) k = getR m k :=
        innerFold_keep_nonzero pos it k cos m hz
      exact ih _ (by rw [hstep]; exact h)

/-- Once the outer loop visits the key's own item code, the lookup ends
at the key's fallback value. -/
theorem outerFold_hit (pos : List PurchaseOrder) (cos : List Nat) (k : Nat × Nat) :
    ∀ (its : List Nat) (m : RateMap), k.1 ∈ its → k.2 ∈ cos →
      (getR m k = 0 ∨ getR m k = fb pos k) →
      getR (List.foldl (stepIt pos cos) m its) k = fb pos k := by
  intro its
  induction its with
  | nil => intro m hmem _ _; simp at hmem
  | cons it its ih =>
    intro m hmem hco hval
    rw [List.foldl_cons]
    by_cases hhit : it = k.1
    · have hafter : getR (stepIt pos cos m it) k = fb pos k :=
        innerFold_hit pos it k cos m hhit.symm hco hval
      exact outerFold_keep_fb pos cos k its _ hafter
    · have hmem2 : k.1 ∈ its := by
        rcases List.mem_cons.mp hmem with hh | hh
        · exact absurd hh.symm hhit
        · exact hh
      have hother : getR (stepIt pos cos m it) k = getR m k :=
        innerFold_other pos it k cos m
          (fun c _ hceq => hhit (congrArg Prod.fst hceq))
      exact ih _ hmem2 hco (by rw [hother]; exact hval)

/-- C4.  For every item of the report and company in scope, the landed
cost equals the weighted stock valuation when that valuation is nonzero;
when it is zero, the landed cost equals the average rate on the most
recent submitted purchase order for that item and company, and `0` when
no such purchase order exists. -/
theorem C4_landed_cost (bins : List BinRow) (pos : List PurchaseOrder)
    (codes companies : List Nat) (it co : Nat)
    (h1 : it ∈ codes) (h2 : co ∈ companies) :
    (gVal bins codes (it, co) / gQty bins codes (it, co) ≠ 0 →
      get_landed_cost bins pos codes companies it co =
        gVal bins codes (it, co) / gQty bins codes (it, co)) ∧
    (gVal bins codes (it, co) / gQty bins codes (it, co) = 0 →
      get_landed_cost bins pos codes companies it co = poFallback pos co it) ∧
    (gVal bins codes (it, co) / gQty bins codes (it, co) = 0 →
      poCandidates pos co it = [] →
      get_landed_cost bins pos codes companies it co = 0) := by
  have hbase := getR_phase1 bins codes (it, co)
  refine ⟨?_, ?_, ?_⟩
  · intro hw
    unfold get_landed_cost phase2
    rw [outerFold_keep_nonzero pos companies (it, co) codes _ (by rw [hbase]; exact hw)]
    rw [hbase]
  · intro hw
    unfold get_landed_cost phase2
    rw [outerFold_hit pos companies (it, co) codes _ h1 h2 (Or.inl (by rw [hbase]; exact hw))]
    rfl
  · intro hw hcand
    unfold get_landed_cost phase2
    rw [outerFold_hit pos companies (it, co) codes _ h1 h2 (Or.inl (by rw [hbase]; exact hw))]
    show poFallback pos co it = 0
    unfold poFallback
    rw [hcand]
    rfl

/-- Witness for C4: no stock bins, one item, one company, two submitted
purchase orders — the landed cost is the purchase-order fallback. -/
theorem C4_witness :
    (1 ∈ [1]) ∧ (2 ∈ [2]) ∧
    (gVal [] [1] (1, 2) / gQty [] [1] (1, 2) = 0) ∧
    get_landed_cost []
      [⟨1, 2, 1, 10, 5, [⟨1, 40⟩, ⟨1, 60⟩]⟩, ⟨2, 2, 1, 9, 5, [⟨1, 100⟩]⟩]
      [1] [2] 1 2 =
      poFallback [⟨1, 2, 1, 10, 5, [⟨1, 40⟩, ⟨1, 60⟩]⟩, ⟨2, 2, 1, 9, 5, [⟨1, 100⟩]⟩]
        2 1 := by
  have hz : gVal [] [1] (1, 2) / gQty [] [1] (1, 2) = 0 := by
    simp [gVal, gQty, stockBins]
  exact ⟨by simp, by simp, hz,
    (C4_landed_cost []
      [⟨1, 2, 1, 10, 5, [⟨1, 40⟩, ⟨1, 60⟩]⟩, ⟨2, 2, 1, 9, 5, [⟨1, 100⟩]⟩]
      [1] [2] 1 2 (by simp) (by simp)).2.1 hz⟩

end Avientek
